import Mathlib

/-!
Verification of the ConfigYaml hierarchical-configuration library.

The development shallowly embeds the two Python source files:

* `cfgyaml/config.py` — class `Config(dict)`, a hierarchical mapping with
  dotted-path item access (`__init__`, `__set_value`, `__setitem__`,
  `__getitem__`, `to_dict`);
* `cfgyaml/config_dir.py` — class `ConfigDir` with the three-level `load`
  algorithm and the recursive merge `__inject_dict`.

Python values flowing through this code (results of `yaml.safe_load`,
argument dictionaries, and `Config` instances) are modelled by the nested
inductive `PyVal`.  A Python `dict` is an insertion-ordered association
list; `Config` is a `dict` subclass and is given its own constructor so
that `isinstance(val, Config)` tests are expressible.  Numeric and string
scalars are opaque payloads (no arithmetic is performed on them); a float
literal is carried as its decimal text.  Operations that can raise in
Python (`KeyError`, `TypeError`, `AttributeError`) return `Option`/`Except`
values, with failure standing for the raised exception.
-/

/-- A Python value as used by the configuration code: `None`, an opaque
scalar (`int`, `float`, `str`), a list, a plain `dict`, or a `Config`
instance (a `dict` subclass).  Dictionaries are insertion-ordered
association lists, matching Python dict semantics. -/
inductive PyVal where
  | null : PyVal
  | int (n : Int) : PyVal
  | float (lit : String) : PyVal
  | str (s : String) : PyVal
  | list (xs : List PyVal) : PyVal
  | dict (es : List (String × PyVal)) : PyVal
  | config (es : List (String × PyVal)) : PyVal

/-- Python `isinstance(v, dict)`: true for plain dicts and for `Config`
instances (a `dict` subclass). -/
def PyVal.isDictInst : PyVal → Bool
  | .dict _ => true
  | .config _ => true
  | _ => false

/-- Python `isinstance(v, dict) and not isinstance(v, Config)`: a plain
dict that is not a `Config`. -/
def PyVal.isPlainDict : PyVal → Bool
  | .dict _ => true
  | _ => false

/-- Python `v is None`. -/
def PyVal.isNull : PyVal → Bool
  | .null => true
  | _ => false

/-- Association-list lookup, first match wins: Python `d[k]` on a plain
dict (each key occurs at most once in a real Python dict). -/
def lookupKey : List (String × PyVal) → String → Option PyVal
  | [], _ => none
  | (k', v) :: rest, k => if k' = k then some v else lookupKey rest k

/-- Python `k in d` membership test on a dict. -/
def containsKey (es : List (String × PyVal)) (k : String) : Bool :=
  (lookupKey es k).isSome

/-- Python `d[k] = v` on a plain dict: replace in place if the key is
present (keeping its position, as Python dicts do), else append. -/
def setKey : List (String × PyVal) → String → PyVal → List (String × PyVal)
  | [], k, v => [(k, v)]
  | (k', v') :: rest, k, v =>
      if k' = k then (k', v) :: rest else (k', v') :: setKey rest k v

/-- Core of Python `str.split('.')` over the character list, with an
accumulator for the current (reversed) segment. -/
def splitDotCore : List Char → List Char → List (List Char)
  | [], cur => [cur.reverse]
  | c :: cs, cur =>
      if c = '.' then cur.reverse :: splitDotCore cs []
      else splitDotCore cs (c :: cur)

/-- Python `key.split('.')`: always returns at least one segment; empty
segments are kept (so `"".split('.') == [""]`). -/
def splitDot (s : String) : List String :=
  (splitDotCore s.data []).map String.mk

/-- Python `'.' in key`. -/
def hasDot (s : String) : Bool :=
  s.data.contains '.'

/-- Python `name.replace('.', os.sep)` with separator `/`. -/
def replaceDotSep (s : String) : String :=
  String.mk (s.data.map fun c => if c = '.' then '/' else c)

example : splitDot "a.b.c" = ["a", "b", "c"] := by decide
example : splitDot "" = [""] := by decide
example : splitDot "ab" = ["ab"] := by decide
example : hasDot "env.device" = true := by decide
example : hasDot "lr" = false := by decide
example : replaceDotSep "a.b" = "a/b" := by decide

/-! ## `Config` (cfgyaml/config.py)

A `Config` value is `PyVal.config es`.  Its methods become the functions
below; a Python exception (`KeyError` from a missing key, `TypeError` from
indexing a non-dict) is `none`. -/

/-- The lookup loop of `Config.__getitem__`:
`for k in keys: node = dict.__getitem__(node, k)`.
Each step requires `node` to be a dict instance holding the key. -/
def getPath : PyVal → List String → Option PyVal
  | node, [] => some node
  | .dict es, k :: ks => (lookupKey es k).bind fun child => getPath child ks
  | .config es, k :: ks => (lookupKey es k).bind fun child => getPath child ks
  | _, _ :: _ => none

/-- `Config.__getitem__(self, key)`: split the key on `.` and descend. -/
def configGet (self : PyVal) (key : String) : Option PyVal :=
  getPath self (splitDot key)

/-- The traversal-and-assignment of `Config.__set_value`: walk all key
segments but the last through `dict.__getitem__`, then
`dict.__setitem__(node, keys[-1], value)` in the terminal node.  The
mutated node is rebuilt along the path (Python mutates it in place through
aliasing). -/
def setPath : PyVal → List String → PyVal → Option PyVal
  | .dict es, [k], v => some (.dict (setKey es k v))
  | .config es, [k], v => some (.config (setKey es k v))
  | .dict es, k :: k' :: ks, v =>
      (lookupKey es k).bind fun child =>
        (setPath child (k' :: ks) v).map fun child' => .dict (setKey es k child')
  | .config es, k :: k' :: ks, v =>
      (lookupKey es k).bind fun child =>
        (setPath child (k' :: ks) v).map fun child' => .config (setKey es k child')
  | _, _, _ => none

/-- The path part of `Config.__set_value(self, key, value)`, after the
value has already been wrapped: `keys = key.split('.')` followed by the
walk-and-assign on `self` (always a `Config`). -/
def setValueRaw (self : List (String × PyVal)) (key : String) (v : PyVal) :
    Option (List (String × PyVal)) :=
  match setPath (.config self) (splitDot key) v with
  | some (.config es) => some es
  | _ => none

mutual

/-- The wrapping step shared by `Config.__init__` and `Config.__set_value`:
`if isinstance(val, dict) and not isinstance(val, Config): val = Config(val)`.
A plain dict is recursively converted to a `Config`; everything else is
kept as-is. -/
def wrapVal : PyVal → Option PyVal
  | .dict es => (configInitEntries es []).map PyVal.config
  | v => some v

/-- The loop of `Config.__init__(self, original)`: starting from the empty
dict, process the entries of `original` in order, wrapping each plain-dict
value into a `Config` and storing it through `self[key] = val`
(`__set_value`; its own wrap check never fires here because the value is
already wrapped). -/
def configInitEntries :
    List (String × PyVal) → List (String × PyVal) → Option (List (String × PyVal))
  | [], acc => some acc
  | (k, v) :: rest, acc =>
      (wrapVal v).bind fun v' =>
        (setValueRaw acc k v').bind fun acc' =>
          configInitEntries rest acc'

end

/-- `Config(original)`: `None` gives the empty config; a dict (or a
`Config`, also a dict) is processed entry by entry; any other argument has
no `.items()` and raises (`none`). -/
def configInit : PyVal → Option PyVal
  | .null => some (.config [])
  | .dict es => (configInitEntries es []).map PyVal.config
  | .config es => (configInitEntries es []).map PyVal.config
  | _ => none

/-- `Config.__set_value(self, key, value)` (the body of `__setitem__` and
`__setattr__`): wrap a plain-dict value into a `Config`, then assign along
the dotted path. -/
def configSet (self : List (String × PyVal)) (key : String) (value : PyVal) :
    Option (List (String × PyVal)) :=
  (wrapVal value).bind fun v' => setValueRaw self key v'

/-- The entry loop of `Config.to_dict`: values that are `Config` instances
are recursively converted, all other values (scalars, lists, and anything
inside lists) are kept unchanged. -/
def toDictEntries : List (String × PyVal) → List (String × PyVal)
  | [] => []
  | (k, .config es) :: rest => (k, .dict (toDictEntries es)) :: toDictEntries rest
  | (k, v) :: rest => (k, v) :: toDictEntries rest

/-- `Config.to_dict` seen as an operation on values: a `Config` becomes a
plain dict with recursively converted entries, any other value is returned
unchanged (this is exactly the per-value step inside `to_dict`). -/
def toDict : PyVal → PyVal
  | .config es => .dict (toDictEntries es)
  | v => v

mutual

/-- Python `==` on the modelled values: dictionaries (plain or `Config` —
Python compares a `dict` subclass by its items) are equal when they have
the same key set and Python-equal values, irrespective of entry order;
lists compare pointwise; scalars compare by payload (opaque scalars, so
cross-type numeric equality such as `1 == 1.0` is not modelled; no claim
compares scalars across types). -/
def pyEq : PyVal → PyVal → Bool
  | .null, .null => true
  | .int a, .int b => a == b
  | .float a, .float b => a == b
  | .str a, .str b => a == b
  | .list xs, .list ys => pyEqList xs ys
  | .dict es, .dict fs => pyEqEntries es fs && fs.all fun p => containsKey es p.1
  | .dict es, .config fs => pyEqEntries es fs && fs.all fun p => containsKey es p.1
  | .config es, .dict fs => pyEqEntries es fs && fs.all fun p => containsKey es p.1
  | .config es, .config fs => pyEqEntries es fs && fs.all fun p => containsKey es p.1
  | _, _ => false

/-- Containment half of Python dict equality: every entry of the first
dict finds the same key in the second with a Python-equal value. -/
def pyEqEntries : List (String × PyVal) → List (String × PyVal) → Bool
  | [], _ => true
  | (k, v) :: rest, fs =>
      (match lookupKey fs k with
       | some w => pyEq v w
       | none => false) && pyEqEntries rest fs

/-- Pointwise Python equality of lists. -/
def pyEqList : List PyVal → List PyVal → Bool
  | [], [] => true
  | x :: xs, y :: ys => pyEq x y && pyEqList xs ys
  | _, _ => false

end

/-! ## Merge (`ConfigDir.__inject_dict`, cfgyaml/config_dir.py)

The merge recursion is not structural: a dotted source key is first
expanded into a chain of nested single-key dicts, which grows the source
before the recursive call consumes it.  Termination therefore uses a
custom measure in which a key of length `n` weighs `2 * n + 1`, enough to
pay for the chain built from its dot-separated segments. -/

mutual

/-- Measure of a value for the merge termination argument. -/
def dsize : PyVal → Nat
  | .dict es => 1 + esize es
  | .config es => 1 + esize es
  | _ => 1

/-- Measure of a dict's entries for the merge termination argument. -/
def esize : List (String × PyVal) → Nat
  | [] => 0
  | (k, v) :: rest => 2 * k.length + 1 + dsize v + esize rest

end

/-- The expansion loop of `__inject_dict`:
`for k in keys[:0:-1]: val = {k: val}` — wrap the value into single-key
dicts, innermost segment first. -/
def expandVal : List String → PyVal → PyVal
  | [], v => v
  | k :: ks, v => expandVal ks (.dict [(k, v)])

/-- After expansion the entry's key is the first dot-separated segment
(`key = keys[0]`). -/
def expandedKey (key : String) : String :=
  (splitDot key).headD ""

/-- After expansion the entry's value is the original value wrapped in
single-key dicts for the remaining segments, innermost to outermost
(`keys[:0:-1]` is the reversed tail of the segment list). -/
def expandedVal (key : String) (v : PyVal) : PyVal :=
  expandVal ((splitDot key).drop 1).reverse v

theorem sum_map_add_one {α : Type} (f : α → Nat) (l : List α) :
    (l.map fun x => f x + 1).sum = (l.map f).sum + l.length := by
  induction l with
  | nil => simp
  | cons a l ih => simp [ih]; omega

theorem sum_map_two_mul {α : Type} (f : α → Nat) (l : List α) :
    (l.map fun x => 2 * f x).sum = 2 * (l.map f).sum := by
  induction l with
  | nil => simp
  | cons a l ih => simp [ih]; omega

/-- Character-count bookkeeping for `splitDotCore`: segment lengths plus
segment count account exactly for the input and accumulator characters. -/
theorem splitDotCore_stats (cs cur : List Char) :
    ((splitDotCore cs cur).map List.length).sum + (splitDotCore cs cur).length
      = cs.length + cur.length + 1 := by
  induction cs generalizing cur with
  | nil => simp [splitDotCore]
  | cons c cs ih =>
      by_cases h : c = '.'
      · have h0 := ih []
        simp [splitDotCore, h] at h0 ⊢
        omega
      · have h0 := ih (c :: cur)
        simp [splitDotCore, h] at h0 ⊢
        omega

theorem sum_map_reverse {α : Type} (f : α → Nat) (l : List α) :
    (l.reverse.map f).sum = (l.map f).sum := by
  rw [List.map_reverse, List.sum_reverse]

/-- The segments after the first, counted with one extra unit each (for
the consumed dots), fit inside the original key. -/
theorem sum_tail_segments_le (k : String) :
    ((((splitDot k).drop 1)).map fun s => String.length s + 1).sum ≤ k.length := by
  have hstats := splitDotCore_stats k.data []
  rcases hp : splitDotCore k.data [] with _ | ⟨p, ps⟩
  · rw [hp] at hstats; simp at hstats
  · rw [hp] at hstats
    have hsplit : splitDot k = String.mk p :: ps.map String.mk := by
      rw [splitDot, hp, List.map_cons]
    rw [hsplit]
    have hdrop : (String.mk p :: ps.map String.mk).drop 1 = ps.map String.mk := rfl
    rw [hdrop, List.map_map]
    have hcomp : ((fun s : String => String.length s + 1) ∘ String.mk)
        = fun l : List Char => List.length l + 1 := rfl
    rw [hcomp]
    have hsum := sum_map_add_one List.length ps
    simp only [List.map_cons, List.sum_cons, List.length_cons, List.length_nil] at hstats
    have hk : k.length = k.data.length := rfl
    omega

/-- Size of an expanded value: the original size plus the weight of the
wrapping segments. -/
theorem dsize_expandVal (segs : List String) (v : PyVal) :
    dsize (expandVal segs v) = (segs.map fun s => 2 * (s.length + 1)).sum + dsize v := by
  induction segs generalizing v with
  | nil => simp [expandVal]
  | cons s ss ih =>
      simp [expandVal, ih, dsize, esize]
      omega

/-- The dot-expansion of a source entry is paid for by the weight
`2 * key.length` that the key contributes to the merge measure. -/
theorem dsize_expandedVal_le (key : String) (v : PyVal) :
    dsize (expandedVal key v) ≤ 2 * key.length + dsize v := by
  rw [expandedVal, dsize_expandVal]
  have h1 : ((((splitDot key).drop 1).reverse).map fun s => 2 * (s.length + 1)).sum
      = ((((splitDot key).drop 1)).map fun s => 2 * (s.length + 1)).sum :=
    sum_map_reverse _ _
  have h2 : ((((splitDot key).drop 1)).map fun s => 2 * (s.length + 1)).sum
      = 2 * ((((splitDot key).drop 1)).map fun s => s.length + 1).sum := by
    have := sum_map_two_mul (fun s : String => s.length + 1) ((splitDot key).drop 1)
    simpa using this
  have h3 := sum_tail_segments_le key
  omega

/-- The conditional expansion applied to each surviving source entry stays
within the weight budget of its key. -/
theorem dsize_ite_le (key : String) (v : PyVal) :
    dsize (if _h : hasDot key = true then expandedVal key v else v)
      ≤ 2 * key.length + dsize v := by
  split
  · exact dsize_expandedVal_le key v
  · omega

mutual

/-- `ConfigDir.__inject_dict(target, source)`: a `None` target yields the
source, a `None` source yields the target, a non-dict source has no
`.items()` and raises (`none`); otherwise the source entries are folded
into the target. -/
def injectDict : PyVal → PyVal → Option PyVal
  | .null, source => some source
  | target, .null => some target
  | target, .dict ses => injectEntries target ses
  | target, .config ses => injectEntries target ses
  | _, _ => none
  termination_by _t s => dsize s
  decreasing_by
    all_goals simp only [dsize]
    all_goals omega

/-- The entry loop of `__inject_dict`: skip `None` values; dot-expand
dotted keys; deep-merge when the (expanded) value is a dict instance and
the target already has the key, otherwise assign.  A non-dict target
raises on the first surviving entry (`none`).  A `Config` target routes
reads and writes through `__getitem__`/`__setitem__` (its assignment wraps
plain-dict values). -/
def injectEntries : PyVal → List (String × PyVal) → Option PyVal
  | target, [] => some target
  | target, (_, .null) :: rest => injectEntries target rest
  | target, (key, v) :: rest =>
      let k := if hasDot key then expandedKey key else key
      let v' := if hasDot key then expandedVal key v else v
      match target with
      | .dict tes =>
          if v'.isDictInst && containsKey tes k then
            (lookupKey tes k).bind fun tv =>
              (injectDict tv v').bind fun m =>
                injectEntries (.dict (setKey tes k m)) rest
          else injectEntries (.dict (setKey tes k v')) rest
      | .config tes =>
          if v'.isDictInst && containsKey tes k then
            (configGet (.config tes) k).bind fun tv =>
              (injectDict tv v').bind fun m =>
                (configSet tes k m).bind fun tes' =>
                  injectEntries (.config tes') rest
          else (configSet tes k v').bind fun tes' => injectEntries (.config tes') rest
      | _ => none
  termination_by _t es => esize es
  decreasing_by
    all_goals simp only [dsize, esize]
    all_goals try omega
    all_goals exact Nat.lt_of_le_of_lt (dsize_ite_le _ _) (by omega)

end

/-! ## `ConfigDir` (cfgyaml/config_dir.py)

The filesystem and the YAML parser are external collaborators: they are
modelled as a finite map `fs` from full file paths to the already-parsed
value of the file (`yaml.safe_load` of its text; an empty file parses to
`None`).  A path missing from `fs` is a file that does not exist, on which
`open` raises `FileNotFoundError`.  `os.sep` is `/`. -/

/-- Directory state of `ConfigDir.__init__`: the directory path and the
default configuration filename (nullable). -/
structure ConfigDir where
  path : String
  default_filename : Option String

/-- Python `self.path.joinpath(f'{name}.yaml')`. -/
def yamlPath (dir : ConfigDir) (name : String) : String :=
  dir.path ++ "/" ++ name ++ ".yaml"

/-- Property `ConfigDir.default_file_fullpath`: the full path of the
default configuration file, or `None` when no default filename is set. -/
def defaultFileFullpath (dir : ConfigDir) : Option String :=
  dir.default_filename.map fun f => yamlPath dir f

/-- How `ConfigDir.load` can fail: a missing required file
(`FileNotFoundError`), no configuration specified at all (`RuntimeError`),
or an uncaught `TypeError`/`KeyError` from merging or wrapping
incompatible shapes. -/
inductive LoadError where
  | fileNotFound (path : String) : LoadError
  | noConfigSpecified : LoadError
  | crash : LoadError

/-- `ConfigDir.load(config_name, args)`: level 1 loads the default file
(raising `FileNotFoundError` if it is declared but absent), level 2 loads
the named override (translating dots in the name to path separators,
checking existence, and merging over the default) or falls back to the
default (raising `RuntimeError` when there is neither), level 3 injects
the extra arguments, and the result is wrapped into a `Config`.  `args` is
the argument dict (`vars(args)` of a `Namespace`), or `null` for `None`. -/
def ConfigDir.load (fs : List (String × PyVal)) (dir : ConfigDir)
    (config_name : Option String) (args : PyVal) : Except LoadError PyVal :=
  match (match dir.default_filename with
         | some f =>
             (match lookupKey fs (yamlPath dir f) with
              | some content => Except.ok content
              | none => Except.error (LoadError.fileNotFound (yamlPath dir f)))
         | none => Except.ok PyVal.null : Except LoadError PyVal) with
  | .error e => .error e
  | .ok default_config =>
    match (match config_name with
           | none =>
               (match default_config with
                | .null => Except.error LoadError.noConfigSpecified
                | dc => Except.ok dc)
           | some name =>
               (match lookupKey fs (yamlPath dir (replaceDotSep name)) with
                | some other_config =>
                    (match injectDict default_config other_config with
                     | some r => Except.ok r
                     | none => Except.error LoadError.crash)
                | none =>
                    Except.error
                      (LoadError.fileNotFound (yamlPath dir (replaceDotSep name))))
             : Except LoadError PyVal) with
    | .error e => .error e
    | .ok result =>
      match injectDict result args with
      | none => .error .crash
      | some result2 =>
        match configInit result2 with
        | some c => .ok c
        | none => .error .crash

example :
    injectDict (.dict []) (.dict [("env.device", .int 3)])
      = some (.dict [("env", .dict [("device", .int 3)])]) := by
  simp [injectDict, injectEntries, hasDot, expandedKey, expandedVal, splitDot,
    splitDotCore, expandVal, containsKey, lookupKey, setKey, PyVal.isDictInst]

/-! ## Helper lemmas about dictionaries and dotted keys -/

theorem lookupKey_setKey_self (es : List (String × PyVal)) (k : String) (v : PyVal) :
    lookupKey (setKey es k v) k = some v := by
  induction es with
  | nil => simp [setKey, lookupKey]
  | cons e rest ih =>
      obtain ⟨k', v'⟩ := e
      by_cases h : k' = k
      · simp [setKey, lookupKey, h]
      · simp [setKey, lookupKey, h, ih]

theorem containsKey_append (a b : List (String × PyVal)) (k : String) :
    containsKey (a ++ b) k = (containsKey a k || containsKey b k) := by
  induction a with
  | nil => simp [containsKey, lookupKey]
  | cons e rest ih =>
      obtain ⟨k', v'⟩ := e
      by_cases h : k' = k
      · simp [containsKey, lookupKey, h]
      · simp only [containsKey, lookupKey] at ih ⊢
        simp [h, ih]

theorem containsKey_of_mem (es : List (String × PyVal)) (p : String × PyVal)
    (h : p ∈ es) : containsKey es p.1 = true := by
  induction es with
  | nil => simp at h
  | cons e rest ih =>
      obtain ⟨k', v'⟩ := e
      rcases List.mem_cons.mp h with h1 | h2
      · subst h1; simp [containsKey, lookupKey]
      · by_cases hk : k' = p.1
        · simp [containsKey, lookupKey, hk]
        · simpa [containsKey, lookupKey, hk] using ih h2

theorem setKey_eq_append (es : List (String × PyVal)) (k : String) (v : PyVal)
    (h : containsKey es k = false) : setKey es k v = es ++ [(k, v)] := by
  induction es with
  | nil => simp [setKey]
  | cons e rest ih =>
      obtain ⟨k', v'⟩ := e
      simp only [containsKey, lookupKey] at h
      by_cases hk : k' = k
      · simp [hk] at h
      · simp only [hk, if_false] at h
        simp only [containsKey] at ih
        simp [setKey, hk, ih h]

theorem splitDotCore_no_dot (cs : List Char) : ∀ cur : List Char,
    cs.contains '.' = false → splitDotCore cs cur = [cur.reverse ++ cs] := by
  induction cs with
  | nil => intro cur _; simp [splitDotCore]
  | cons c cs ih =>
      intro cur h
      simp only [List.contains_cons, Bool.or_eq_false_iff] at h
      have hc : ¬(c = '.') := by
        intro hc; subst hc; simp at h
      rw [splitDotCore]
      simp only [hc, if_false]
      rw [ih (c :: cur) h.2]
      simp

/-- A key without a dot splits into the single segment that is the key
itself. -/
theorem splitDot_single (k : String) (h : hasDot k = false) : splitDot k = [k] := by
  rw [splitDot, splitDotCore_no_dot k.data [] h]
  rfl

/-- Setting through a dot-free key is a top-level dict assignment. -/
theorem setValueRaw_single (acc : List (String × PyVal)) (k : String)
    (h : hasDot k = false) (v : PyVal) :
    setValueRaw acc k v = some (setKey acc k v) := by
  rw [setValueRaw, splitDot_single k h]
  simp [setPath]

/-! ## Path feasibility (for the `KeyNotFound` claims) -/

/-- Feasibility of a dictionary-style descent: every segment must be
looked up in a dict instance that contains it.  This is exactly the
condition under which the `dict.__getitem__` chain of
`Config.__getitem__`/`Config.__set_value` does not raise. -/
def pathOk : PyVal → List String → Bool
  | _, [] => true
  | .dict es, k :: ks =>
      (match lookupKey es k with
       | some child => pathOk child ks
       | none => false)
  | .config es, k :: ks =>
      (match lookupKey es k with
       | some child => pathOk child ks
       | none => false)
  | _, _ :: _ => false

/-- The `__getitem__` descent succeeds exactly when every segment resolves
through a dict instance: it fails precisely when some segment is absent or
its holder is not a mapping. -/
theorem getPath_isSome : ∀ (keys : List String) (node : PyVal),
    (getPath node keys).isSome = pathOk node keys := by
  intro keys
  induction keys with
  | nil => intro node; simp [getPath, pathOk]
  | cons k ks ih =>
      intro node
      cases node with
      | dict es => cases h : lookupKey es k <;> simp [getPath, pathOk, h, ih]
      | config es => cases h : lookupKey es k <;> simp [getPath, pathOk, h, ih]
      | null => simp [getPath, pathOk]
      | int n => simp [getPath, pathOk]
      | float s => simp [getPath, pathOk]
      | str s => simp [getPath, pathOk]
      | list xs => simp [getPath, pathOk]

/-- If the walk through all segments but the last is infeasible, the
assignment of `__set_value` raises. -/
theorem setPath_none_of_bad_walk (v : PyVal) : ∀ (keys : List String) (node : PyVal),
    pathOk node keys.dropLast = false → setPath node keys v = none := by
  intro keys
  induction keys with
  | nil => intro node _; simp [setPath]
  | cons k ks ih =>
      intro node h
      cases ks with
      | nil => simp [pathOk] at h
      | cons k2 ks2 =>
          have hdrop : (k :: k2 :: ks2).dropLast = k :: (k2 :: ks2).dropLast := rfl
          rw [hdrop] at h
          cases node with
          | dict es =>
              cases hl : lookupKey es k with
              | none => simp [setPath, hl]
              | some child =>
                  rw [pathOk, hl] at h
                  simp [setPath, hl, ih child h]
          | config es =>
              cases hl : lookupKey es k with
              | none => simp [setPath, hl]
              | some child =>
                  rw [pathOk, hl] at h
                  simp [setPath, hl, ih child h]
          | null => simp [setPath]
          | int n => simp [setPath]
          | float s => simp [setPath]
          | str s => simp [setPath]
          | list xs => simp [setPath]

/-! ## Plain values and the wrap/unwrap round trip -/

/-- Keys of a dict are pairwise distinct (every real Python dict satisfies
this; the association-list model must assume it). -/
def keysND : List (String × PyVal) → Bool
  | [] => true
  | (k, _) :: rest => !containsKey rest k && keysND rest

mutual

/-- A plain value as produced by a YAML parser, with dot-free dict keys:
no `Config` instances inside, every dict has pairwise-distinct keys that
contain no `.`.  Lists are opaque leaves (their contents are never wrapped
or unwrapped). -/
def goodVal : PyVal → Bool
  | .dict es => keysND es && goodEntries es
  | .config _ => false
  | _ => true

/-- Entry-wise condition of `goodVal` on a dict's entries. -/
def goodEntries : List (String × PyVal) → Bool
  | [] => true
  | (k, v) :: rest => !hasDot k && goodVal v && goodEntries rest

end

theorem toDictEntries_cons (k : String) (w : PyVal) (l : List (String × PyVal)) :
    toDictEntries ((k, w) :: l) = (k, toDict w) :: toDictEntries l := by
  cases w <;> simp [toDictEntries, toDict]

/-- Round-trip statement for values and for entry lists, packaged for a
single strong induction on size. -/
theorem roundtripAux : ∀ n : Nat,
    (∀ v : PyVal, sizeOf v ≤ n → goodVal v = true →
      ∃ w, wrapVal v = some w ∧ toDict w = v)
    ∧ (∀ es acc : List (String × PyVal), sizeOf es ≤ n → keysND es = true →
        goodEntries es = true → (∀ p ∈ es, containsKey acc p.1 = false) →
        ∃ res, configInitEntries es acc = some (acc ++ res) ∧ toDictEntries res = es) := by
  intro n
  induction n using Nat.strong_induction_on with
  | _ n ih =>
    constructor
    · intro v hv h
      cases v with
      | dict es =>
          simp only [goodVal, Bool.and_eq_true] at h
          have hlt : sizeOf es < n := by
            have : sizeOf es < sizeOf (PyVal.dict es) := by
              simp [PyVal.dict.sizeOf_spec]
            omega
          obtain ⟨res, hres, hto⟩ :=
            (ih (sizeOf es) hlt).2 es [] le_rfl h.1 h.2 (fun p _ => rfl)
          refine ⟨.config res, ?_, ?_⟩
          · simp only [wrapVal, hres]
            simp
          · simp only [toDict, hto]
      | config es => simp [goodVal] at h
      | null => exact ⟨.null, by simp [wrapVal], by simp [toDict]⟩
      | int m => exact ⟨.int m, by simp [wrapVal], by simp [toDict]⟩
      | float s => exact ⟨.float s, by simp [wrapVal], by simp [toDict]⟩
      | str s => exact ⟨.str s, by simp [wrapVal], by simp [toDict]⟩
      | list xs => exact ⟨.list xs, by simp [wrapVal], by simp [toDict]⟩
    · intro es acc hes hnd hg hdisj
      cases es with
      | nil => exact ⟨[], by simp [configInitEntries], by simp [toDictEntries]⟩
      | cons e rest =>
          obtain ⟨k, v⟩ := e
          simp only [keysND, Bool.and_eq_true, Bool.not_eq_true'] at hnd
          simp only [goodEntries, Bool.and_eq_true, Bool.not_eq_true'] at hg
          have hsz : sizeOf v < n ∧ sizeOf rest < n := by
            have : sizeOf v < sizeOf ((k, v) :: rest)
                ∧ sizeOf rest < sizeOf ((k, v) :: rest) := by
              simp [List.cons.sizeOf_spec, Prod.mk.sizeOf_spec]
              omega
            omega
          obtain ⟨w, hw, hwto⟩ := (ih (sizeOf v) hsz.1).1 v le_rfl hg.1.2
          have hda : containsKey acc k = false := hdisj (k, v) (List.mem_cons_self _ _)
          have hset : setValueRaw acc k w = some (acc ++ [(k, w)]) := by
            rw [setValueRaw_single acc k hg.1.1 w, setKey_eq_append acc k w hda]
          have hdisj2 : ∀ p ∈ rest, containsKey (acc ++ [(k, w)]) p.1 = false := by
            intro p hp
            rw [containsKey_append]
            have h1 := hdisj p (List.mem_cons_of_mem _ hp)
            have h2 : ¬(k = p.1) := by
              intro he
              have hm := containsKey_of_mem rest p hp
              rw [← he] at hm
              rw [hm] at hnd
              exact absurd hnd.1 (by simp)
            rw [h1]
            simp [containsKey, lookupKey, h2]
          obtain ⟨res2, hres2, hto2⟩ :=
            (ih (sizeOf rest) hsz.2).2 rest (acc ++ [(k, w)]) le_rfl hnd.2 hg.2 hdisj2
          refine ⟨(k, w) :: res2, ?_, ?_⟩
          · rw [configInitEntries, hw, Option.some_bind, hset, Option.some_bind, hres2]
            simp
          · rw [toDictEntries_cons, hwto, hto2]

/-- Wrapping a plain value with dot-free keys succeeds and unwrapping
recovers it. -/
theorem wrapVal_roundtrip (v : PyVal) (h : goodVal v = true) :
    ∃ w, wrapVal v = some w ∧ toDict w = v :=
  (roundtripAux (sizeOf v)).1 v le_rfl h

/-- Processing plain entries with dot-free, pairwise-distinct keys through
the `__init__` loop appends their wrapped forms to the accumulator, and
unwrapping recovers the original entries. -/
theorem configInitEntries_roundtrip (es acc : List (String × PyVal))
    (hnd : keysND es = true) (hg : goodEntries es = true)
    (hdisj : ∀ p ∈ es, containsKey acc p.1 = false) :
    ∃ res, configInitEntries es acc = some (acc ++ res) ∧ toDictEntries res = es :=
  (roundtripAux (sizeOf es)).2 es acc le_rfl hnd hg hdisj

/-! ## The auto-wrap invariant (no plain dict stored in a `Config`) -/

mutual

/-- The auto-wrap invariant on a value: no direct value of a `Config` is a
plain dict, recursively through `Config` and dict values.  Lists are
opaque leaves. -/
def invVal : PyVal → Bool
  | .config es => invEntriesC es
  | .dict es => invEntriesD es
  | _ => true

/-- Invariant on the entries of a `Config`: every value is not a plain
dict and satisfies the invariant. -/
def invEntriesC : List (String × PyVal) → Bool
  | [] => true
  | (_, v) :: rest => !v.isPlainDict && invVal v && invEntriesC rest

/-- Invariant on the entries of a plain dict: every value satisfies the
invariant (plain-dict values are allowed here; they get wrapped on
insertion into a `Config`). -/
def invEntriesD : List (String × PyVal) → Bool
  | [] => true
  | (_, v) :: rest => invVal v && invEntriesD rest

end

theorem invEntriesC_lookup (es : List (String × PyVal)) (k : String) (v : PyVal)
    (hi : invEntriesC es = true) (hl : lookupKey es k = some v) :
    v.isPlainDict = false ∧ invVal v = true := by
  induction es with
  | nil => simp [lookupKey] at hl
  | cons e rest ih =>
      obtain ⟨k', v'⟩ := e
      simp only [invEntriesC, Bool.and_eq_true, Bool.not_eq_true'] at hi
      by_cases h : k' = k
      · rw [lookupKey, if_pos h] at hl
        cases hl
        exact ⟨hi.1.1, hi.1.2⟩
      · rw [lookupKey, if_neg h] at hl
        exact ih hi.2 hl

theorem invEntriesD_lookup (es : List (String × PyVal)) (k : String) (v : PyVal)
    (hi : invEntriesD es = true) (hl : lookupKey es k = some v) :
    invVal v = true := by
  induction es with
  | nil => simp [lookupKey] at hl
  | cons e rest ih =>
      obtain ⟨k', v'⟩ := e
      simp only [invEntriesD, Bool.and_eq_true] at hi
      by_cases h : k' = k
      · rw [lookupKey, if_pos h] at hl
        cases hl
        exact hi.1
      · rw [lookupKey, if_neg h] at hl
        exact ih hi.2 hl

theorem invEntriesC_setKey (es : List (String × PyVal)) (k : String) (v : PyVal)
    (hi : invEntriesC es = true) (hv : invVal v = true) (hp : v.isPlainDict = false) :
    invEntriesC (setKey es k v) = true := by
  induction es with
  | nil => simp [setKey, invEntriesC, hv, hp]
  | cons e rest ih =>
      obtain ⟨k', v'⟩ := e
      simp only [invEntriesC, Bool.and_eq_true, Bool.not_eq_true'] at hi
      by_cases h : k' = k
      · simp [setKey, h, invEntriesC, hv, hp, hi.2]
      · simp [setKey, h, invEntriesC, hi.1.1, hi.1.2, ih hi.2]

theorem invEntriesD_setKey (es : List (String × PyVal)) (k : String) (v : PyVal)
    (hi : invEntriesD es = true) (hv : invVal v = true) :
    invEntriesD (setKey es k v) = true := by
  induction es with
  | nil => simp [setKey, invEntriesD, hv]
  | cons e rest ih =>
      obtain ⟨k', v'⟩ := e
      simp only [invEntriesD, Bool.and_eq_true] at hi
      by_cases h : k' = k
      · simp [setKey, h, invEntriesD, hv, hi.2]
      · simp [setKey, h, invEntriesD, hi.1, ih hi.2]

/-- The walk-and-assign of `__set_value` preserves the auto-wrap invariant
when the inserted value is invariant and not a plain dict; the result node
keeps the target's dict/`Config` nature. -/
theorem setPath_inv (v : PyVal) : ∀ (keys : List String) (node node' : PyVal),
    invVal node = true → invVal v = true → v.isPlainDict = false →
    setPath node keys v = some node' →
    invVal node' = true ∧ node'.isPlainDict = node.isPlainDict := by
  intro keys
  induction keys with
  | nil => intro node node' _ _ _ h; simp [setPath] at h
  | cons k ks ih =>
      intro node node' hn hv hp h
      cases ks with
      | nil =>
          cases node with
          | dict es =>
              rw [setPath] at h
              cases h
              simp only [invVal] at hn ⊢
              exact ⟨invEntriesD_setKey es k v hn hv, rfl⟩
          | config es =>
              rw [setPath] at h
              cases h
              simp only [invVal] at hn ⊢
              exact ⟨invEntriesC_setKey es k v hn hv hp, rfl⟩
          | null => simp [setPath] at h
          | int n => simp [setPath] at h
          | float s => simp [setPath] at h
          | str s => simp [setPath] at h
          | list xs => simp [setPath] at h
      | cons k2 ks2 =>
          cases node with
          | dict es =>
              rw [setPath] at h
              cases hl : lookupKey es k with
              | none => rw [hl] at h; simp at h
              | some child =>
                  rw [hl] at h
                  simp only [Option.some_bind] at h
                  cases hs : setPath child (k2 :: ks2) v with
                  | none => rw [hs] at h; simp at h
                  | some child' =>
                      rw [hs] at h
                      simp only [Option.map_some'] at h
                      cases h
                      simp only [invVal] at hn ⊢
                      have hchild := invEntriesD_lookup es k child hn hl
                      have := ih child child' hchild hv hp hs
                      exact ⟨invEntriesD_setKey es k child' hn this.1, rfl⟩
          | config es =>
              rw [setPath] at h
              cases hl : lookupKey es k with
              | none => rw [hl] at h; simp at h
              | some child =>
                  rw [hl] at h
                  simp only [Option.some_bind] at h
                  cases hs : setPath child (k2 :: ks2) v with
                  | none => rw [hs] at h; simp at h
                  | some child' =>
                      rw [hs] at h
                      simp only [Option.map_some'] at h
                      cases h
                      simp only [invVal] at hn ⊢
                      have hchild := invEntriesC_lookup es k child hn hl
                      have hrec := ih child child' hchild.2 hv hp hs
                      refine ⟨invEntriesC_setKey es k child' hn hrec.1 ?_, rfl⟩
                      rw [hrec.2, hchild.1]
          | null => simp [setPath] at h
          | int n => simp [setPath] at h
          | float s => simp [setPath] at h
          | str s => simp [setPath] at h
          | list xs => simp [setPath] at h

/-- Inversion of `setValueRaw`: success means the path assignment on the
`Config` root succeeded and returned a `Config`. -/
theorem setValueRaw_inv (self : List (String × PyVal)) (key : String) (v : PyVal)
    (out : List (String × PyVal)) (h : setValueRaw self key v = some out) :
    setPath (.config self) (splitDot key) v = some (.config out) := by
  rw [setValueRaw] at h
  cases hs : setPath (.config self) (splitDot key) v with
  | none => rw [hs] at h; simp at h
  | some node =>
      rw [hs] at h
      cases node <;> simp_all

theorem invEntriesC_to_D (es : List (String × PyVal))
    (h : invEntriesC es = true) : invEntriesD es = true := by
  induction es with
  | nil => simp [invEntriesD]
  | cons e rest ih =>
      obtain ⟨k, v⟩ := e
      simp only [invEntriesC, Bool.and_eq_true] at h
      simp [invEntriesD, h.1.2, ih h.2]

/-- Invariant statement for wrapping and for the `__init__` loop, packaged
for a single strong induction on size. -/
theorem invAux : ∀ n : Nat,
    (∀ v w : PyVal, sizeOf v ≤ n → invVal v = true → wrapVal v = some w →
      invVal w = true ∧ w.isPlainDict = false)
    ∧ (∀ (es acc res : List (String × PyVal)), sizeOf es ≤ n →
        invEntriesD es = true → invEntriesC acc = true →
        configInitEntries es acc = some res → invEntriesC res = true) := by
  intro n
  induction n using Nat.strong_induction_on with
  | _ n ih =>
    constructor
    · intro v w hv hi hw
      cases v with
      | dict es =>
          rw [wrapVal] at hw
          cases hres : configInitEntries es [] with
          | none => rw [hres] at hw; simp at hw
          | some res =>
              rw [hres] at hw
              simp only [Option.map_some'] at hw
              cases hw
              have hlt : sizeOf es < n := by
                have : sizeOf es < sizeOf (PyVal.dict es) := by
                  simp [PyVal.dict.sizeOf_spec]
                omega
              simp only [invVal] at hi
              have := (ih (sizeOf es) hlt).2 es [] res le_rfl hi (by simp [invEntriesC]) hres
              simp [invVal, PyVal.isPlainDict, this]
      | config es =>
          simp [wrapVal] at hw
          subst hw
          exact ⟨hi, rfl⟩
      | null =>
          simp [wrapVal] at hw
          subst hw
          exact ⟨hi, rfl⟩
      | int m =>
          simp [wrapVal] at hw
          subst hw
          exact ⟨hi, rfl⟩
      | float s =>
          simp [wrapVal] at hw
          subst hw
          exact ⟨hi, rfl⟩
      | str s =>
          simp [wrapVal] at hw
          subst hw
          exact ⟨hi, rfl⟩
      | list xs =>
          simp [wrapVal] at hw
          subst hw
          exact ⟨hi, rfl⟩
    · intro es acc res hes hie hia hres
      cases es with
      | nil =>
          rw [configInitEntries] at hres
          cases hres
          exact hia
      | cons e rest =>
          obtain ⟨k, v⟩ := e
          rw [configInitEntries] at hres
          simp only [invEntriesD, Bool.and_eq_true] at hie
          cases hw : wrapVal v with
          | none => rw [hw] at hres; simp at hres
          | some w =>
              rw [hw] at hres
              simp only [Option.some_bind] at hres
              cases hsv : setValueRaw acc k w with
              | none => rw [hsv] at hres; simp at hres
              | some acc2 =>
                  rw [hsv] at hres
                  simp only [Option.some_bind] at hres
                  have hsz : sizeOf v < n ∧ sizeOf rest < n := by
                    have : sizeOf ((k, v) :: rest)
                        = 1 + (1 + sizeOf k + sizeOf v) + sizeOf rest := by
                      simp [List.cons.sizeOf_spec, Prod.mk.sizeOf_spec]
                    omega
                  have hwinv := (ih (sizeOf v) hsz.1).1 v w le_rfl hie.1 hw
                  have hpath := setValueRaw_inv acc k w acc2 hsv
                  have hacc2 := setPath_inv w (splitDot k) (.config acc) (.config acc2)
                    (by simp [invVal, hia]) hwinv.1 hwinv.2 hpath
                  have hacc2' : invEntriesC acc2 = true := by
                    have := hacc2.1
                    simpa [invVal] using this
                  exact (ih (sizeOf rest) hsz.2).2 rest acc2 res le_rfl hie.2 hacc2' hres

/-! ## Merge helper lemmas -/

/-- One step of the merge entry loop for a surviving (non-none) entry,
stated for an arbitrary target. -/
theorem injectEntries_cons_step (t : PyVal) (key : String) (v : PyVal)
    (rest : List (String × PyVal)) (hv : v ≠ .null) :
    injectEntries t ((key, v) :: rest) =
      (let k := if hasDot key then expandedKey key else key
       let v' := if hasDot key then expandedVal key v else v
       match t with
       | .dict tes =>
           if v'.isDictInst && containsKey tes k then
             (lookupKey tes k).bind fun tv =>
               (injectDict tv v').bind fun m =>
                 injectEntries (.dict (setKey tes k m)) rest
           else injectEntries (.dict (setKey tes k v')) rest
       | .config tes =>
           if v'.isDictInst && containsKey tes k then
             (configGet (.config tes) k).bind fun tv =>
               (injectDict tv v').bind fun m =>
                 (configSet tes k m).bind fun tes' =>
                   injectEntries (.config tes') rest
           else (configSet tes k v').bind fun tes' => injectEntries (.config tes') rest
       | _ => none) := by
  cases v <;> first
    | exact absurd rfl hv
    | rw [injectEntries.eq_def]

theorem splitDotCore_ne_nil (cs cur : List Char) : splitDotCore cs cur ≠ [] := by
  induction cs generalizing cur with
  | nil => simp [splitDotCore]
  | cons c cs ih =>
      rw [splitDotCore]
      by_cases h : c = '.'
      · simp [h]
      · simp only [h, if_false]
        exact ih (c :: cur)

/-- Every segment produced by the split contains no dot (provided the
accumulator contains none). -/
theorem splitDotCore_no_dot_mem (cs : List Char) : ∀ (cur p : List Char),
    cur.contains '.' = false → p ∈ splitDotCore cs cur → p.contains '.' = false := by
  induction cs with
  | nil =>
      intro cur p hc hp
      rw [splitDotCore] at hp
      simp only [List.mem_singleton] at hp
      subst hp
      simpa using hc
  | cons c cs ih =>
      intro cur p hc hp
      rw [splitDotCore] at hp
      by_cases h : c = '.'
      · simp only [h, if_true] at hp
        rcases List.mem_cons.mp hp with h1 | h2
        · subst h1; simpa using hc
        · exact ih [] p rfl h2
      · simp only [h, if_false] at hp
        have hc' : (c :: cur).contains '.' = false := by
          simp only [List.contains_cons, Bool.or_eq_false_iff]
          constructor
          · simp only [beq_eq_false_iff_ne]
            intro he
            exact h he.symm
          · exact hc
        exact ih (c :: cur) p hc' hp

/-- The head segment of a dotted key contains no dot. -/
theorem hasDot_expandedKey (key : String) : hasDot (expandedKey key) = false := by
  rw [expandedKey, splitDot]
  rcases hp : splitDotCore key.data [] with _ | ⟨p, ps⟩
  · exact absurd hp (splitDotCore_ne_nil _ _)
  · have hmem : p ∈ splitDotCore key.data [] := by rw [hp]; exact List.mem_cons_self _ _
    have := splitDotCore_no_dot_mem key.data [] p rfl hmem
    simpa [hasDot] using this

/-- A dotted key splits into at least two segments. -/
theorem splitDot_two_of_hasDot (key : String) (h : hasDot key = true) :
    2 ≤ (splitDot key).length := by
  rw [splitDot, List.length_map]
  rw [hasDot] at h
  have : ∀ (cs cur : List Char), cs.contains '.' = true →
      2 ≤ (splitDotCore cs cur).length := by
    intro cs
    induction cs with
    | nil => intro cur hc; simp at hc
    | cons c cs ih =>
        intro cur hc
        rw [splitDotCore]
        by_cases hcd : c = '.'
        · simp only [hcd, if_true, List.length_cons]
          have := splitDotCore_ne_nil cs ([] : List Char)
          have hlen : 1 ≤ (splitDotCore cs []).length := by
            cases hq : splitDotCore cs [] with
            | nil => exact absurd hq this
            | cons q qs => simp
          omega
        · simp only [hcd, if_false]
          apply ih
          simp only [List.contains_cons, Bool.or_eq_true] at hc
          rcases hc with h1 | h2
          · have hcc : c = '.' := by
              simp only [beq_iff_eq] at h1
              exact h1.symm
            exact absurd hcc hcd
          · exact h2
  exact this key.data [] h

/-- The expansion of a nonempty segment list is a plain dict. -/
theorem expandVal_isDict (segs : List String) (v : PyVal) (h : segs ≠ []) :
    ∃ es, expandVal segs v = .dict es := by
  induction segs generalizing v with
  | nil => exact absurd rfl h
  | cons s ss ih =>
      cases ss with
      | nil => exact ⟨[(s, v)], by simp [expandVal]⟩
      | cons s2 ss2 =>
          rw [expandVal]
          exact ih _ (by simp)

/-- The expanded value of a dotted key is a plain dict (in particular it
is not none and is a dict instance). -/
theorem expandedVal_isDict (key : String) (v : PyVal) (h : hasDot key = true) :
    ∃ es, expandedVal key v = .dict es := by
  rw [expandedVal]
  apply expandVal_isDict
  have h2 := splitDot_two_of_hasDot key h
  intro hc
  rw [← List.length_eq_zero] at hc
  rw [List.length_reverse, List.length_drop] at hc
  omega

/-! ## Claims -/

/-- C1: for a `ConfigDir` whose default file parses to
`{"env": {"device": -1}, "lr": 0.01}` and which contains an override file
named `"overlap"` parsing to `{"lr": 0.02}`, calling
`load("overlap", args)` with extra args `{"env.device": 0}` returns a
configuration whose plain-mapping form is
`{"env": {"device": 0}, "lr": 0.02}`: the default is loaded first, the
named override wins on `lr`, and the injected argument wins on
`env.device`. -/
theorem claim1_three_level_load :
    (ConfigDir.load
      [("config/default.yaml",
        .dict [("env", .dict [("device", .int (-1))]), ("lr", .float "0.01")]),
       ("config/overlap.yaml", .dict [("lr", .float "0.02")])]
      ⟨"config", some "default"⟩
      (some "overlap")
      (.dict [("env.device", .int 0)])).map toDict
    = .ok (.dict [("env", .dict [("device", .int 0)]), ("lr", .float "0.02")]) := by
  simp [ConfigDir.load, yamlPath, replaceDotSep, lookupKey, injectDict,
    injectEntries, hasDot, expandedKey, expandedVal, splitDot, splitDotCore,
    expandVal, containsKey, setKey, PyVal.isDictInst, configInit,
    configInitEntries, wrapVal, setValueRaw, setPath, configSet, configGet,
    getPath, toDict, toDictEntries, Except.map]

/-- C2: `load` raises `FileNotFoundError` when the declared default file
is absent; raises `FileNotFoundError` when a named override file does not
exist (whatever the state of the default); and raises `RuntimeError`
(no config specified) when no default filename is configured and no
override name is given.  Each failure is returned immediately as the
result of `load`. -/
theorem claim2_load_errors :
    (∀ (fs : List (String × PyVal)) (dir : ConfigDir) (f : String)
        (config_name : Option String) (args : PyVal),
      dir.default_filename = some f →
      lookupKey fs (yamlPath dir f) = none →
      ConfigDir.load fs dir config_name args
        = .error (.fileNotFound (yamlPath dir f)))
    ∧ (∀ (fs : List (String × PyVal)) (dir : ConfigDir) (name : String)
          (args : PyVal),
        lookupKey fs (yamlPath dir (replaceDotSep name)) = none →
        ∃ p, ConfigDir.load fs dir (some name) args = .error (.fileNotFound p))
    ∧ (∀ (fs : List (String × PyVal)) (dir : ConfigDir) (args : PyVal),
        dir.default_filename = none →
        ConfigDir.load fs dir none args = .error .noConfigSpecified) := by
  refine ⟨?_, ?_, ?_⟩
  · intro fs dir f config_name args hdf hlk
    simp [ConfigDir.load, hdf, hlk]
  · intro fs dir name args hlk
    cases hdf : dir.default_filename with
    | none =>
        exact ⟨yamlPath dir (replaceDotSep name), by simp [ConfigDir.load, hdf, hlk]⟩
    | some f =>
        cases hdl : lookupKey fs (yamlPath dir f) with
        | none => exact ⟨yamlPath dir f, by simp [ConfigDir.load, hdf, hdl]⟩
        | some c =>
            exact ⟨yamlPath dir (replaceDotSep name),
              by simp [ConfigDir.load, hdf, hdl, hlk]⟩
  · intro fs dir args hdf
    simp [ConfigDir.load, hdf]

/-- Witness for C2 at concrete inputs: an empty filesystem with a declared
default gives `fileNotFound`; a named override on an empty filesystem
gives `fileNotFound`; no default filename and no name gives
`noConfigSpecified`. -/
theorem claim2_load_errors_witness :
    ConfigDir.load [] ⟨"config", some "default"⟩ none .null
      = .error (.fileNotFound (yamlPath ⟨"config", some "default"⟩ "default"))
    ∧ (∃ p, ConfigDir.load [] ⟨"config", none⟩ (some "other") .null
        = .error (.fileNotFound p))
    ∧ ConfigDir.load [] ⟨"config", none⟩ none .null
        = .error .noConfigSpecified := by
  refine ⟨?_, ?_, ?_⟩
  · exact claim2_load_errors.1 [] ⟨"config", some "default"⟩ "default" none .null rfl rfl
  · exact claim2_load_errors.2.1 [] ⟨"config", none⟩ "other" .null rfl
  · exact claim2_load_errors.2.2 [] ⟨"config", none⟩ .null rfl

/-- C3 counterexample: the claimed round trip fails for the plain mapping
`M = {"a": {}, "a.b": 1}` (only mappings and scalars, no cycles).
`Config(M)` routes the key `"a.b"` through the dotted-path assignment, so
`Config(M).to_dict()` is `{"a": {"b": 1}}`, and that result is not equal
to `M` under Python `==` itself (`pyEq`, order-insensitive and
wrap-insensitive): the key sets already differ. -/
theorem claim3_roundtrip_counterexample :
    (configInit (.dict [("a", .dict []), ("a.b", .int 1)])).map toDict
      = some (.dict [("a", .dict [("b", .int 1)])])
    ∧ pyEq (.dict [("a", .dict [("b", .int 1)])])
        (.dict [("a", .dict []), ("a.b", .int 1)]) = false := by
  constructor
  · simp [configInit, configInitEntries, wrapVal, setValueRaw, splitDot,
      splitDotCore, setPath, setKey, lookupKey, toDict, toDictEntries]
  · simp [pyEq, pyEqEntries, lookupKey]

/-- C3 (amended): for every plain nested mapping containing only
mappings, scalars, and lists, none of whose mapping keys (at any level)
contains `.`, constructing a `Config` from it and converting back with
`to_dict` yields literally the original mapping, entry order included —
stronger than the Python `==` the claim asks for.  The pairwise-distinct
keys in `goodVal` only state that the association list denotes a real
Python dict, which can never hold a duplicate key; the sole restriction
the counterexample forces is the absence of dots, since construction
routes dotted keys through dotted-path assignment. -/
theorem claim3_roundtrip_amended (es : List (String × PyVal))
    (h : goodVal (.dict es) = true) :
    (configInit (.dict es)).map toDict = some (.dict es) := by
  simp only [goodVal, Bool.and_eq_true] at h
  obtain ⟨res, hres, hto⟩ := configInitEntries_roundtrip es [] h.1 h.2 (fun p _ => rfl)
  simp only [configInit, hres]
  simp [toDict, hto]

/-- Witness for the amended C3 at a concrete nested mapping. -/
theorem claim3_roundtrip_amended_witness :
    goodVal (.dict [("a", .dict [("b", .int 2)]), ("c", .int 3)]) = true
    ∧ (configInit (.dict [("a", .dict [("b", .int 2)]), ("c", .int 3)])).map toDict
        = some (.dict [("a", .dict [("b", .int 2)]), ("c", .int 3)]) := by
  have hg : goodVal (.dict [("a", .dict [("b", .int 2)]), ("c", .int 3)]) = true := by
    simp [goodVal, goodEntries, keysND, containsKey, lookupKey, hasDot]
  exact ⟨hg, claim3_roundtrip_amended _ hg⟩

/-- C4: a dotted source key of the merge is expanded, innermost segment
first, into a chain of single-key nested dicts headed by the first
segment, before the merge step proceeds — merging any entry with a dotted
key is the same as merging the expanded entry; in particular
`merge({}, {"env.device": 3})` yields `{"env": {"device": 3}}`. -/
theorem claim4_dot_expansion :
    (∀ (t : PyVal) (key : String) (v : PyVal) (rest : List (String × PyVal)),
        hasDot key = true → v ≠ .null →
        injectEntries t ((key, v) :: rest)
          = injectEntries t ((expandedKey key, expandedVal key v) :: rest))
    ∧ injectDict (.dict []) (.dict [("env.device", .int 3)])
        = some (.dict [("env", .dict [("device", .int 3)])]) := by
  constructor
  · intro t key v rest hdot hv
    obtain ⟨es2, hes2⟩ := expandedVal_isDict key v hdot
    have hek := hasDot_expandedKey key
    rw [injectEntries_cons_step t key v rest hv,
      injectEntries_cons_step t (expandedKey key) (expandedVal key v) rest
        (by rw [hes2]; intro hc; cases hc)]
    rw [hes2]
    simp [hdot, hek]
  · simp [injectDict, injectEntries, hasDot, expandedKey, expandedVal, splitDot,
      splitDotCore, expandVal, containsKey, lookupKey, setKey, PyVal.isDictInst]

/-- Witness for C4 at a concrete dotted entry and target. -/
theorem claim4_dot_expansion_witness :
    injectEntries (.dict [("env", .dict [("device", .int (-1))])])
        [("env.device", .int 0)]
      = injectEntries (.dict [("env", .dict [("device", .int (-1))])])
          [(expandedKey "env.device", expandedVal "env.device" (.int 0))] :=
  claim4_dot_expansion.1 (.dict [("env", .dict [("device", .int (-1))])])
    "env.device" (.int 0) [] (by decide) (by intro h; cases h)

/-- C5 counterexample: `merge({"a": 1}, {"a": {"b": 2}})` does not yield
`{"a": {"b": 2}}`.  Because the source value is a dict and the key is
present in the target, the code recurses into the scalar `1` and the
recursive call raises `TypeError` on its first entry. -/
theorem claim5_overwrite_counterexample :
    injectDict (.dict [("a", .int 1)]) (.dict [("a", .dict [("b", .int 2)])])
      ≠ some (.dict [("a", .dict [("b", .int 2)])]) := by
  simp [injectDict, injectEntries, hasDot, containsKey, lookupKey, setKey,
    PyVal.isDictInst]

/-- C5 (amended): when a source value is a dict instance and the target
already has the (dot-free) key, the code always merges recursively into
`target[key]` — deep, source-wins, as in
`merge({"a": {"x": 1, "y": 2}}, {"a": {"y": 3}}) = {"a": {"x": 1, "y": 3}}` —
but when `target[key]` is a scalar the recursion raises `TypeError`
instead of overwriting: `merge({"a": 1}, {"a": {"b": 2}})` raises.  The
wholesale-overwrite branch applies only when the source value is not a
dict or the key is absent. -/
theorem claim5_deep_merge_amended :
    (∀ (tes : List (String × PyVal)) (key : String) (v tv : PyVal)
        (rest : List (String × PyVal)),
      hasDot key = false → v ≠ .null → v.isDictInst = true →
      lookupKey tes key = some tv →
      injectEntries (.dict tes) ((key, v) :: rest)
        = (injectDict tv v).bind fun m =>
            injectEntries (.dict (setKey tes key m)) rest)
    ∧ injectDict (.dict [("a", .dict [("x", .int 1), ("y", .int 2)])])
          (.dict [("a", .dict [("y", .int 3)])])
        = some (.dict [("a", .dict [("x", .int 1), ("y", .int 3)])])
    ∧ injectDict (.dict [("a", .int 1)]) (.dict [("a", .dict [("b", .int 2)])])
        = none := by
  refine ⟨?_, ?_, ?_⟩
  · intro tes key v tv rest hdot hv hdi hlk
    rw [injectEntries_cons_step _ _ _ _ hv]
    simp [hdot, hdi, containsKey, hlk]
  · simp [injectDict, injectEntries, hasDot, containsKey, lookupKey, setKey,
      PyVal.isDictInst]
  · simp [injectDict, injectEntries, hasDot, containsKey, lookupKey, setKey,
      PyVal.isDictInst]

/-- Witness for the amended C5: the general recursive-merge equation at
the concrete deep-merge inputs. -/
theorem claim5_deep_merge_amended_witness :
    injectEntries (.dict [("a", .dict [("x", .int 1), ("y", .int 2)])])
        [("a", .dict [("y", .int 3)])]
      = (injectDict (.dict [("x", .int 1), ("y", .int 2)])
          (.dict [("y", .int 3)])).bind fun m =>
            injectEntries
              (.dict (setKey [("a", .dict [("x", .int 1), ("y", .int 2)])] "a" m))
              [] :=
  claim5_deep_merge_amended.1 [("a", .dict [("x", .int 1), ("y", .int 2)])]
    "a" (.dict [("y", .int 3)]) (.dict [("x", .int 1), ("y", .int 2)]) []
    (by decide) (by intro h; cases h) rfl rfl

/-- C6: none values in a merge source are skipped entirely: a source entry
with value `None` leaves any target unchanged by that entry, and merging
`{k: None}` into a mapping returns the mapping untouched (the key stays
absent if it was absent and keeps its value if present). -/
theorem claim6_none_safe :
    (∀ (t : PyVal) (k : String) (rest : List (String × PyVal)),
        injectEntries t ((k, .null) :: rest) = injectEntries t rest)
    ∧ ∀ (tes : List (String × PyVal)) (k : String),
        injectDict (.dict tes) (.dict [(k, .null)]) = some (.dict tes) := by
  constructor
  · intro t k rest
    simp [injectEntries]
  · intro tes k
    simp [injectDict, injectEntries]

/-- C10: dot-expansion applies only to the keys of the mapping currently
being merged: when the target lacks the (dot-free) key, the source value
is assigned verbatim through the overwrite branch, so dotted keys nested
inside that value are not expanded — `merge({}, {"a": {"b.c": 1}})` yields
`{"a": {"b.c": 1}}`, not `{"a": {"b": {"c": 1}}}`. -/
theorem claim10_no_nested_expansion :
    (∀ (tes : List (String × PyVal)) (key : String) (v : PyVal)
        (rest : List (String × PyVal)),
      hasDot key = false → v ≠ .null → containsKey tes key = false →
      injectEntries (.dict tes) ((key, v) :: rest)
        = injectEntries (.dict (setKey tes key v)) rest)
    ∧ injectDict (.dict []) (.dict [("a", .dict [("b.c", .int 1)])])
        = some (.dict [("a", .dict [("b.c", .int 1)])])
    ∧ injectDict (.dict []) (.dict [("a", .dict [("b.c", .int 1)])])
        ≠ some (.dict [("a", .dict [("b", .dict [("c", .int 1)])])]) := by
  refine ⟨?_, ?_, ?_⟩
  · intro tes key v rest hdot hv hck
    rw [injectEntries_cons_step _ _ _ _ hv]
    simp [hdot, hck]
  · simp [injectDict, injectEntries, hasDot, containsKey, lookupKey, setKey,
      PyVal.isDictInst]
  · simp [injectDict, injectEntries, hasDot, containsKey, lookupKey, setKey,
      PyVal.isDictInst]

/-- Witness for C10: the verbatim-assignment equation at the concrete
input of the example. -/
theorem claim10_no_nested_expansion_witness :
    injectEntries (.dict []) [("a", .dict [("b.c", .int 1)])]
      = injectEntries (.dict (setKey [] "a" (.dict [("b.c", .int 1)]))) [] :=
  claim10_no_nested_expansion.1 [] "a" (.dict [("b.c", .int 1)]) []
    (by decide) (by intro h; cases h) rfl

/-- C7 counterexample: for the value `v = {"a": {}, "a.b": 2}`,
`set("a.b.c", v)` on a map containing nested keys `a` and `a.b` stores the
wrap `Config(v)`, whose construction routes the dotted key `"a.b"` through
dotted-path assignment; the stored value unwraps to `{"a": {"b": 2}}`,
which is not equal to `v`, so `get("a.b.c")` does not return `v`. -/
theorem claim7_get_set_counterexample :
    ¬ ((configSet [("a", .config [("b", .config [])])] "a.b.c"
          (.dict [("a", .dict []), ("a.b", .int 2)])).bind
        (fun ms' => (configGet (.config ms') "a.b.c").map toDict)
      = some (.dict [("a", .dict []), ("a.b", .int 2)])) := by
  simp [configSet, wrapVal, configInitEntries, setValueRaw, splitDot,
    splitDotCore, setPath, setKey, lookupKey, configGet, getPath, toDict,
    toDictEntries]

/-- C7 (amended): for every plain value `v` with pairwise-distinct,
dot-free mapping keys, after `set("a.b.c", v)` on a map already containing
the nested sub-maps `a` and `a.b`, `get("a.b.c")` returns the stored
value, which unwraps back to `v` (Python `==` compares a stored `Config`
and the plain mapping it wraps as equal).  The claim as stated, for every
value `v`, fails when `v` contains dotted mapping keys. -/
theorem claim7_get_set_amended (ms ea eb : List (String × PyVal)) (v : PyVal)
    (ha : lookupKey ms "a" = some (.config ea))
    (hb : lookupKey ea "b" = some (.config eb))
    (hv : goodVal v = true) :
    ∃ ms', configSet ms "a.b.c" v = some ms'
      ∧ (configGet (.config ms') "a.b.c").map toDict = some v := by
  obtain ⟨w, hw, hwto⟩ := wrapVal_roundtrip v hv
  have hsplit : splitDot "a.b.c" = ["a", "b", "c"] := by decide
  refine ⟨setKey ms "a" (.config (setKey ea "b" (.config (setKey eb "c" w)))),
    ?_, ?_⟩
  · rw [configSet, hw, Option.some_bind, setValueRaw, hsplit]
    simp [setPath, ha, hb]
  · rw [configGet, hsplit]
    simp [getPath, lookupKey_setKey_self, hwto]

/-- Witness for the amended C7 at a concrete map and value. -/
theorem claim7_get_set_amended_witness :
    ∃ ms', configSet [("a", .config [("b", .config [])])] "a.b.c" (.int 7)
        = some ms'
      ∧ (configGet (.config ms') "a.b.c").map toDict = some (.int 7) :=
  claim7_get_set_amended [("a", .config [("b", .config [])])]
    [("b", .config [])] [] (.int 7) rfl rfl (by simp [goodVal])

/-- C8: a dotted-path `get` fails exactly when the descent is infeasible —
some segment is absent from its node or the node holding it is not a dict
instance; and a dotted-path `set` fails whenever the walk through the
segments before the last is infeasible (in particular, `set` never creates
missing intermediate nodes).  Failure is the raised `KeyError`/`TypeError`
(`none`). -/
theorem claim8_key_not_found :
    (∀ (self : List (String × PyVal)) (key : String),
        (configGet (.config self) key).isSome
          = pathOk (.config self) (splitDot key))
    ∧ ∀ (self : List (String × PyVal)) (key : String) (v : PyVal),
        pathOk (.config self) ((splitDot key).dropLast) = false →
        configSet self key v = none := by
  constructor
  · intro self key
    rw [configGet]
    exact getPath_isSome _ _
  · intro self key v h
    rw [configSet]
    cases hw : wrapVal v with
    | none => simp
    | some w =>
        simp only [Option.some_bind]
        rw [setValueRaw, setPath_none_of_bad_walk w _ _ h]

/-- Witness for C8: on the map `{"a": {}}`, `get("a.b")` fails (segment
`b` missing), `get("c")` fails (absent), `get("a")` succeeds, and
`set("b.c", 5)` fails because the intermediate segment `b` is missing. -/
theorem claim8_key_not_found_witness :
    (configGet (.config [("a", .config [])]) "a.b").isSome
        = pathOk (.config [("a", .config [])]) (splitDot "a.b")
    ∧ configSet [("a", .config [])] "b.c" (.int 5) = none := by
  constructor
  · exact claim8_key_not_found.1 [("a", .config [])] "a.b"
  · apply claim8_key_not_found.2 [("a", .config [])] "b.c" (.int 5)
    decide

/-- C9: every mapping value stored inside a `Config` is itself a `Config`:
construction wraps every plain-dict value recursively, and `set` wraps a
plain-dict value before storing it, so both operations preserve the
invariant that no plain dict is stored as a value anywhere inside the
structure (mappings inside opaque list leaves are not values of the map).
-/
theorem claim9_auto_wrap_invariant :
    (∀ (M C : PyVal), invVal M = true → configInit M = some C →
        invVal C = true)
    ∧ ∀ (ms : List (String × PyVal)) (key : String) (v : PyVal)
        (ms' : List (String × PyVal)),
        invEntriesC ms = true → invVal v = true →
        configSet ms key v = some ms' → invEntriesC ms' = true := by
  constructor
  · intro M C hm hc
    cases M with
    | null =>
        rw [configInit] at hc
        cases hc
        simp [invVal, invEntriesC]
    | dict es =>
        rw [configInit] at hc
        cases hres : configInitEntries es [] with
        | none => rw [hres] at hc; simp at hc
        | some res =>
            rw [hres] at hc
            simp only [Option.map_some'] at hc
            cases hc
            have := (invAux (sizeOf es)).2 es [] res le_rfl
              (by simpa [invVal] using hm) (by simp [invEntriesC]) hres
            simpa [invVal] using this
    | config es =>
        rw [configInit] at hc
        cases hres : configInitEntries es [] with
        | none => rw [hres] at hc; simp at hc
        | some res =>
            rw [hres] at hc
            simp only [Option.map_some'] at hc
            cases hc
            have hd : invEntriesD es = true :=
              invEntriesC_to_D es (by simpa [invVal] using hm)
            have := (invAux (sizeOf es)).2 es [] res le_rfl hd
              (by simp [invEntriesC]) hres
            simpa [invVal] using this
    | int n => simp [configInit] at hc
    | float s => simp [configInit] at hc
    | str s => simp [configInit] at hc
    | list xs => simp [configInit] at hc
  · intro ms key v ms' hms hv hset
    rw [configSet] at hset
    cases hw : wrapVal v with
    | none => rw [hw] at hset; simp at hset
    | some w =>
        rw [hw] at hset
        simp only [Option.some_bind] at hset
        have hwi := (invAux (sizeOf v)).1 v w le_rfl hv hw
        have hpath := setValueRaw_inv ms key w ms' hset
        have hres := setPath_inv w (splitDot key) (.config ms) (.config ms')
          (by simpa [invVal] using hms) hwi.1 hwi.2 hpath
        simpa [invVal] using hres.1

/-- Witness for C9: constructing from `{"a": {"b": 1}}` yields an
invariant `Config`, and `set("a", {"c": 2})` on a `Config` stores the
wrapped mapping, preserving the invariant. -/
theorem claim9_auto_wrap_invariant_witness :
    invVal (.config [("a", .config [("b", .int 1)])]) = true
    ∧ invEntriesC [("a", .config [("c", .int 2)])] = true := by
  constructor
  · apply claim9_auto_wrap_invariant.1 (.dict [("a", .dict [("b", .int 1)])])
    · simp [invVal, invEntriesD, invEntriesC, PyVal.isPlainDict]
    · simp [configInit, configInitEntries, wrapVal, setValueRaw, splitDot,
        splitDotCore, setPath, setKey]
  · apply claim9_auto_wrap_invariant.2 [("a", .config [])] "a"
      (.dict [("c", .int 2)])
    · simp [invEntriesC, invVal, PyVal.isPlainDict]
    · simp [invVal, invEntriesD, invEntriesC, PyVal.isPlainDict]
    · simp [configSet, wrapVal, configInitEntries, setValueRaw, splitDot,
        splitDotCore, setPath, setKey]
